import Mathlib

set_option maxHeartbeats 1000000

/-!
Verification development for the Sia host database (package `hostdb`):
a weighted selection tree of storage-host entries, a container with an
active and an inactive identifier index, a reorg reconciler (`Update`)
and a weighted random sampler (`RandomHost`).

The container-level code (`HostDB`, `New`, `Insert`, `Remove`, `Update`,
`RandomHost`) is translated directly from the source.  The tree node
type (`hostNode` in the source) and its operations `createNode`,
`insert`, `remove` and `entryAtWeight`, the lock helpers
`lock`/`unlock`/`rLock`/`rUnlock`, and the external scanner
`findHostAnnouncements` are referenced by the source but their bodies
are not part of it; those are modelled from the specification and are
marked as such in their doc comments.
-/

/-- A host announcement record: a stable identifier and a sampling
weight (`components.HostEntry`; the network-address and pricing
metadata are irrelevant to the tree mechanics and are omitted).
Weights are unsigned (`consensus.Currency`), modelled as `Nat`. -/
structure HostEntry where
  id : String
  weight : Nat
  deriving DecidableEq, Repr

/-- Modelled from the spec: the weighted selection tree node
(`hostNode` in the source, whose body is missing).  A node owns one
`HostEntry`, up to two children, and a cached subtree weight (the
source field `weight`).  The parent back-reference of the source is
not needed in a functional model.  `nil` is the absent child / null
root. -/
inductive HostTree where
  | nil : HostTree
  | node (entry : HostEntry) (weight : Nat) (left right : HostTree) : HostTree
  deriving DecidableEq, Repr

namespace HostTree

/-- The cached subtree weight of a tree (source field `weight` on
`hostNode`; the spec calls it `subtreeWeight`); 0 for an absent
child. -/
def subtreeWeight : HostTree → Nat
  | .nil => 0
  | .node _ w _ _ => w

/-- Modelled from the spec: `createNode` makes a fresh leaf whose
cached subtree weight is the entry weight. -/
def createNode (entry : HostEntry) : HostTree :=
  .node entry entry.weight .nil .nil

/-- Modelled from the spec: tree `insert`.  Starting at the root,
descend into the lighter child (ties broken to the left), until a
missing child slot is found; attach a new leaf there and add the
entry weight to the cached weight of every node on the path. -/
def insert : HostTree → HostEntry → HostTree
  | .nil, e => createNode e
  | .node en w l r, e =>
      if l.subtreeWeight ≤ r.subtreeWeight then
        .node en (w + e.weight) (l.insert e) r
      else
        .node en (w + e.weight) l (r.insert e)

/-- Modelled from the spec: detach a leaf descendant (preferring the
right subtree, as in the removal policy of the spec), returning its
entry and the remaining tree with the leaf weight subtracted from the
cached weight of every node on the path; `none` on the empty tree. -/
def popLeaf : HostTree → Option (HostEntry × HostTree)
  | .nil => none
  | .node e w l r =>
      match r.popLeaf with
      | some (le, rp) => some (le, .node e (w - le.weight) l rp)
      | none =>
          match l.popLeaf with
          | some (le, lp) => some (le, .node e (w - le.weight) lp .nil)
          | none => some (e, .nil)

/-- Whether an entry with the given identifier occurs in the tree.
The container locates nodes through its active index; the functional
model locates them by identifier instead. -/
def containsId : HostTree → String → Bool
  | .nil, _ => false
  | .node e _ l r, i => if e.id = i then true else (l.containsId i || r.containsId i)

/-- Modelled from the spec: tree `remove`, by identifier (the source
removes through the node pointer held in the active index; under the
container discipline identifiers are unique in the tree, so the two
agree).  A childless node is detached; a node with children has its
entry replaced by that of a leaf descendant which is then detached.
Returns the new tree together with the weight that was removed
(subtracted from the cached weight of every node above the removal
point); the weight is 0 and the tree unchanged when the identifier is
absent. -/
def removeId : HostTree → String → HostTree × Nat
  | .nil, _ => (.nil, 0)
  | .node e w l r, i =>
      if e.id = i then
        match r.popLeaf with
        | some (le, rp) => (.node le (w - e.weight) l rp, e.weight)
        | none =>
            match l.popLeaf with
            | some (le, lp) => (.node le (w - e.weight) lp .nil, e.weight)
            | none => (.nil, e.weight)
      else if l.containsId i then
        ((.node e (w - (l.removeId i).2) (l.removeId i).1 r), (l.removeId i).2)
      else if r.containsId i then
        ((.node e (w - (r.removeId i).2) l (r.removeId i).1), (r.removeId i).2)
      else
        (.node e w l r, 0)

/-- Modelled from the spec: weighted lookup `entryAtWeight`.  With
`lw` the left child weight: below `lw` recurse left, below
`lw + ownWeight` return this entry, otherwise recurse right with the
residue.  `none` models the programming-error failure when no
interval contains the value. -/
def entryAtWeight : HostTree → Nat → Option HostEntry
  | .nil, _ => none
  | .node e _ l r, x =>
      if x < l.subtreeWeight then l.entryAtWeight x
      else if x < l.subtreeWeight + e.weight then some e
      else r.entryAtWeight (x - l.subtreeWeight - e.weight)

/-- The multiset of entries stored in a tree. -/
def entriesM : HostTree → Multiset HostEntry
  | .nil => 0
  | .node e _ l r => e ::ₘ (l.entriesM + r.entriesM)

/-- The multiset of identifiers stored in a tree. -/
def idsM (t : HostTree) : Multiset String :=
  t.entriesM.map (fun e => e.id)

/-- The sum of the entry weights stored in a tree. -/
def sumWeights (t : HostTree) : Nat :=
  (t.entriesM.map (fun e => e.weight)).sum

/-- Executable form of invariant I1: every node caches the sum of its
own entry weight and the cached weights of its children. -/
def wf : HostTree → Bool
  | .nil => true
  | .node e w l r =>
      (w == e.weight + l.subtreeWeight + r.subtreeWeight) && l.wf && r.wf

/-- Propositional form of invariant I1, phrased exactly as the spec
states it: for every node,
`subtreeWeight == ownWeight + subtreeWeight(left) + subtreeWeight(right)`. -/
def WfP : HostTree → Prop
  | .nil => True
  | .node e w l r =>
      w = e.weight + l.subtreeWeight + r.subtreeWeight ∧ WfP l ∧ WfP r

end HostTree

/-- Modelled from the spec: a block, abstracted to the outcome of
scanning it.  The core consumes a block only through the external
scanner, which either yields the announced host entries or fails with
a decoding error, so this abstraction is fully general for the
container's behaviour. -/
abbrev Block := Except String (List HostEntry)

/-- Modelled from the spec: the external block-scanning collaborator
`findHostAnnouncements(initialStateHeight, block)`, a side-effect-free
function yielding the announcements of a block or a decoding error.
With blocks abstracted to their scan outcome it returns that
outcome. -/
def findHostAnnouncements (_initialStateHeight : Nat) (b : Block) :
    Except String (List HostEntry) :=
  b

/-- The host database container: the tree root, the active index and
the inactive index.  The source's active index maps identifiers to
tree-node pointers; only its key set is observable in the functional
model, so it is a `Finset`.  The inactive index maps identifiers to
entries.  The reader-writer lock is modelled at the call sites
(`Update` records the states exposed while it is unlocked). -/
structure HostDB where
  hostTree : HostTree
  activeHosts : Finset String
  inactiveHosts : List (String × HostEntry)
  deriving DecidableEq

namespace HostDB

/-- `New` returns an empty host database. -/
def New : HostDB :=
  { hostTree := .nil, activeHosts := ∅, inactiveHosts := [] }

/-- `Insert` adds an entry to the hostdb: with an active entry of the
same identifier it fails and mutates nothing; otherwise the entry is
inserted into the tree (a fresh root when the tree is empty) and the
identifier recorded in the active index.  The returned pair is the
state of the receiver after the call and the error, if any. -/
def Insert (hdb : HostDB) (entry : HostEntry) : HostDB × Option String :=
  if entry.id ∈ hdb.activeHosts then
    (hdb, some "entry of given id already exists in host db")
  else
    match hdb.hostTree with
    | .nil =>
        ({ hdb with
            hostTree := HostTree.createNode entry,
            activeHosts := insert entry.id hdb.activeHosts }, none)
    | .node en w l r =>
        ({ hdb with
            hostTree := (HostTree.node en w l r).insert entry,
            activeHosts := insert entry.id hdb.activeHosts }, none)

/-- `Remove` deletes an entry from the hostdb: an active identifier is
removed from the active index and its node removed from the tree; an
identifier found only in the inactive index is deleted there;
otherwise the call fails and mutates nothing. -/
def Remove (hdb : HostDB) (i : String) : HostDB × Option String :=
  if i ∈ hdb.activeHosts then
    ({ hdb with
        activeHosts := hdb.activeHosts.erase i,
        hostTree := (hdb.hostTree.removeId i).1 }, none)
  else if (hdb.inactiveHosts.lookup i).isSome then
    ({ hdb with
        inactiveHosts := hdb.inactiveHosts.filter (fun p => p.1 != i) }, none)
  else
    (hdb, some "id not found in host database")

end HostDB

/-- One rewound block's removals: each scanned announcement identifier
is removed through `HostDB.Remove`; the first failure stops the loop
and is propagated, with the state reached so far kept. -/
def removeEntries : HostDB → List HostEntry → HostDB × Option String
  | hdb, [] => (hdb, none)
  | hdb, e :: es =>
      match hdb.Remove e.id with
      | (hdb1, some msg) => (hdb1, some msg)
      | (hdb1, none) => removeEntries hdb1 es

/-- The rewind phase of `Update`: blocks are scanned in the given
order and their announcements removed; a scanner or removal failure
is propagated at once.  The exclusive lock stays held throughout this
phase (the source performs no unlock here). -/
def rewindBlocks (h : Nat) : HostDB → List Block → HostDB × Option String
  | hdb, [] => (hdb, none)
  | hdb, b :: bs =>
      match findHostAnnouncements h b with
      | .error msg => (hdb, some msg)
      | .ok entries =>
          match removeEntries hdb entries with
          | (hdb1, some msg) => (hdb1, some msg)
          | (hdb1, none) => rewindBlocks h hdb1 bs

/-- One applied block's insertions.  The source releases the
exclusive lock before each `Insert` and reacquires it afterwards; the
third component records, in order, the states a concurrent reader
could observe during those unlocked windows (the pre-`Insert` state of
each window). -/
def insertEntries : HostDB → List HostEntry → HostDB × Option String × List HostDB
  | hdb, [] => (hdb, none, [])
  | hdb, e :: es =>
      match hdb.Insert e with
      | (hdb1, some msg) => (hdb1, some msg, [hdb])
      | (hdb1, none) =>
          match insertEntries hdb1 es with
          | (hdb2, err, exp) => (hdb2, err, hdb :: exp)

/-- The apply phase of `Update`: blocks are scanned in forward order
and their announcements inserted, accumulating the reader-visible
states of the unlocked windows around the inserts. -/
def applyBlocks (h : Nat) : HostDB → List Block → HostDB × Option String × List HostDB
  | hdb, [] => (hdb, none, [])
  | hdb, b :: bs =>
      match findHostAnnouncements h b with
      | .error msg => (hdb, some msg, [])
      | .ok entries =>
          match insertEntries hdb entries with
          | (hdb1, some msg, exp) => (hdb1, some msg, exp)
          | (hdb1, none, exp) =>
              match applyBlocks h hdb1 bs with
              | (hdb2, err, exp2) => (hdb2, err, exp ++ exp2)

/-- Result of an `Update` call: the final state of the receiver, the
returned error, and the states exposed to concurrent readers while the
exclusive lock was released inside the call. -/
structure UpdateResult where
  state : HostDB
  error : Option String
  exposed : List HostDB
  deriving DecidableEq

/-- `Update` reconciles the hostdb with a chain reorganization: all
rewound blocks are processed first (announcements removed), then all
applied blocks (announcements inserted); any failure is returned to
the caller at once, keeping the progress already made. -/
def HostDB.Update (hdb : HostDB) (initialStateHeight : Nat)
    (rewoundBlocks appliedBlocks : List Block) : UpdateResult :=
  match rewindBlocks initialStateHeight hdb rewoundBlocks with
  | (hdb1, some msg) => ⟨hdb1, some msg, []⟩
  | (hdb1, none) =>
      match applyBlocks initialStateHeight hdb1 appliedBlocks with
      | (hdb2, err, exp) => ⟨hdb2, err, exp⟩

/-- `RandomHost` draws a weighted random host.  The uniformly random
value in `[0, subtreeWeight(root))` comes from the external secure
random source and is passed in as `randWeight`.  With an empty active
index the call fails; otherwise the tree's weighted lookup maps the
value to an entry.  The first component is the state of the receiver
after the call. -/
def HostDB.RandomHost (hdb : HostDB) (randWeight : Nat) :
    HostDB × Option HostEntry × Option String :=
  if hdb.activeHosts.card = 0 then
    (hdb, none, some "no hosts found")
  else
    match hdb.hostTree.entryAtWeight randWeight with
    | some e => (hdb, some e, none)
    | none => (hdb, none, some "no entry found at given weight")

/-- States reachable from the empty container by any sequence of
`Insert`, `Remove` and `Update` operations (with arbitrary inputs,
successful or failed). -/
inductive Reachable : HostDB → Prop where
  | new : Reachable HostDB.New
  | insert {hdb : HostDB} (e : HostEntry) :
      Reachable hdb → Reachable (hdb.Insert e).1
  | remove {hdb : HostDB} (i : String) :
      Reachable hdb → Reachable (hdb.Remove i).1
  | update {hdb : HostDB} (h : Nat) (rw ap : List Block) :
      Reachable hdb → Reachable (hdb.Update h rw ap).state

/-- The container invariant carried through every reachable state: the
tree satisfies the weight invariant I1, the tree's identifiers are
exactly the keys of the active index (I2) and are pairwise distinct,
and the inactive index is empty (no operation ever adds to it). -/
def DbInv (hdb : HostDB) : Prop :=
  hdb.hostTree.wf = true ∧
    (∀ j, j ∈ hdb.activeHosts ↔ hdb.hostTree.containsId j = true) ∧
    hdb.hostTree.idsM.Nodup ∧
    hdb.inactiveHosts = []

/-- Demo entry with identifier A and weight 10 (spec testable property:
sampling correctness). -/
def entryA : HostEntry := ⟨"A", 10⟩

/-- Demo entry with identifier B and weight 30. -/
def entryB : HostEntry := ⟨"B", 30⟩

/-- Demo entry with identifier C and weight 60. -/
def entryC : HostEntry := ⟨"C", 60⟩

/-- Demo entry X, announced by block P1 in the reorg scenario. -/
def entryX : HostEntry := ⟨"X", 5⟩

/-- Demo entry Y, announced by block P2 in the reorg scenario. -/
def entryY : HostEntry := ⟨"Y", 7⟩

/-- Demo entry Z, used as a pending applied-block announcement. -/
def entryZ : HostEntry := ⟨"Z", 9⟩

/-- Container holding exactly A, B and C (inserted in that order). -/
def dbABC : HostDB :=
  (((HostDB.New.Insert entryA).1.Insert entryB).1.Insert entryC).1

/-- Container holding exactly X then Y (the reorg scenario start). -/
def dbXY : HostDB :=
  ((HostDB.New.Insert entryX).1.Insert entryY).1

/-- A container state whose inactive index holds one entry, used to
exercise the inactive branch of `Remove` (which no sequence of the
exported operations can reach, since nothing inserts into the
inactive index). -/
def dbInactive : HostDB :=
  { hostTree := .nil, activeHosts := ∅, inactiveHosts := [("I", ⟨"I", 3⟩)] }

namespace HostTree

theorem subtreeWeight_insert (t : HostTree) (e : HostEntry) :
    (t.insert e).subtreeWeight = t.subtreeWeight + e.weight := by
  cases t with
  | nil => simp [insert, createNode, subtreeWeight]
  | node en w l r =>
      simp only [insert]
      split <;> simp [subtreeWeight]

theorem subtreeWeight_nil : (HostTree.nil).subtreeWeight = 0 := rfl

theorem subtreeWeight_node {e : HostEntry} {w : Nat} {l r : HostTree} :
    (HostTree.node e w l r).subtreeWeight = w := rfl

theorem wf_node_iff {e : HostEntry} {w : Nat} {l r : HostTree} :
    (HostTree.node e w l r).wf = true ↔
      (w = e.weight + l.subtreeWeight + r.subtreeWeight ∧ l.wf = true ∧ r.wf = true) := by
  simp [wf, Bool.and_eq_true, beq_iff_eq, and_assoc]

theorem wf_insert {t : HostTree} (e : HostEntry) (h : t.wf = true) :
    (t.insert e).wf = true := by
  induction t with
  | nil => simp [insert, createNode, wf, subtreeWeight]
  | node en w l r ihl ihr =>
      rw [wf_node_iff] at h
      obtain ⟨hw, hl, hr⟩ := h
      simp only [insert]
      split
      · rw [wf_node_iff]
        refine ⟨?_, ihl hl, hr⟩
        rw [subtreeWeight_insert]
        omega
      · rw [wf_node_iff]
        refine ⟨?_, hl, ihr hr⟩
        rw [subtreeWeight_insert]
        omega

theorem entriesM_insert (t : HostTree) (e : HostEntry) :
    (t.insert e).entriesM = e ::ₘ t.entriesM := by
  induction t with
  | nil => simp [insert, createNode, entriesM]
  | node en w l r ihl ihr =>
      simp only [insert]
      split
      · simp only [entriesM, ihl, Multiset.cons_add]
        exact Multiset.cons_swap _ _ _
      · simp only [entriesM, ihr, Multiset.add_cons]
        exact Multiset.cons_swap _ _ _

theorem popLeaf_none {t : HostTree} (h : t.popLeaf = none) : t = .nil := by
  cases t with
  | nil => rfl
  | node e w l r =>
      exfalso
      simp only [popLeaf] at h
      cases hr : r.popLeaf with
      | some p => rw [hr] at h; cases p; simp at h
      | none =>
          rw [hr] at h
          cases hl : l.popLeaf with
          | some p => rw [hl] at h; cases p; simp at h
          | none => rw [hl] at h; simp at h

theorem popLeaf_spec {t : HostTree} {e : HostEntry} {tp : HostTree}
    (h : t.popLeaf = some (e, tp)) :
    t.entriesM = e ::ₘ tp.entriesM ∧
      (t.wf = true →
        t.subtreeWeight = e.weight + tp.subtreeWeight ∧ tp.wf = true) := by
  induction t generalizing e tp with
  | nil => simp [popLeaf] at h
  | node en w l r ihl ihr =>
      simp only [popLeaf] at h
      cases hr : r.popLeaf with
      | some p =>
          obtain ⟨le, rp⟩ := p
          rw [hr] at h
          simp only [Option.some.injEq, Prod.mk.injEq] at h
          obtain ⟨rfl, rfl⟩ := h
          constructor
          · have hmem := (ihr hr).1
            simp only [entriesM, hmem, Multiset.add_cons]
            exact Multiset.cons_swap _ _ _
          · intro hwf
            rw [wf_node_iff] at hwf
            obtain ⟨hw, hwl, hwr⟩ := hwf
            obtain ⟨hs, hwrp⟩ := (ihr hr).2 hwr
            constructor
            · simp only [subtreeWeight_node]
              omega
            · rw [wf_node_iff]
              refine ⟨?_, hwl, hwrp⟩
              omega
      | none =>
          rw [hr] at h
          have hrnil := popLeaf_none hr
          subst hrnil
          cases hl : l.popLeaf with
          | some p =>
              obtain ⟨le, lp⟩ := p
              rw [hl] at h
              simp only [Option.some.injEq, Prod.mk.injEq] at h
              obtain ⟨rfl, rfl⟩ := h
              constructor
              · have hmem := (ihl hl).1
                simp only [entriesM, hmem, Multiset.cons_add]
                exact Multiset.cons_swap _ _ _
              · intro hwf
                rw [wf_node_iff] at hwf
                obtain ⟨hw, hwl, _⟩ := hwf
                obtain ⟨hs, hwlp⟩ := (ihl hl).2 hwl
                constructor
                · simp only [subtreeWeight_nil, subtreeWeight_node] at hw ⊢
                  omega
                · rw [wf_node_iff]
                  refine ⟨?_, hwlp, rfl⟩
                  simp only [subtreeWeight_nil, subtreeWeight_node] at hw ⊢
                  omega
          | none =>
              rw [hl] at h
              have hlnil := popLeaf_none hl
              subst hlnil
              simp only [Option.some.injEq, Prod.mk.injEq] at h
              obtain ⟨rfl, rfl⟩ := h
              constructor
              · simp [entriesM]
              · intro hwf
                rw [wf_node_iff] at hwf
                obtain ⟨hw, _, _⟩ := hwf
                refine ⟨?_, rfl⟩
                simp only [subtreeWeight_nil, subtreeWeight_node] at hw ⊢
                omega

theorem containsId_node {e : HostEntry} {w : Nat} {l r : HostTree} {i : String} :
    (HostTree.node e w l r).containsId i =
      (if e.id = i then true else (l.containsId i || r.containsId i)) := rfl

theorem removeId_spec {t : HostTree} {i : String}
    (hwf : t.wf = true) (hc : t.containsId i = true) :
    ∃ x : HostEntry, x.id = i ∧ (t.removeId i).2 = x.weight ∧
      t.entriesM = x ::ₘ (t.removeId i).1.entriesM ∧
      t.subtreeWeight = x.weight + (t.removeId i).1.subtreeWeight ∧
      (t.removeId i).1.wf = true := by
  induction t with
  | nil => simp [containsId] at hc
  | node en w l r ihl ihr =>
      rw [wf_node_iff] at hwf
      obtain ⟨hw, hwl, hwr⟩ := hwf
      by_cases he : en.id = i
      · refine ⟨en, he, ?_⟩
        simp only [removeId, if_pos he]
        cases hpr : r.popLeaf with
        | some p =>
            obtain ⟨le, rp⟩ := p
            obtain ⟨hmem, hsum⟩ := popLeaf_spec hpr
            obtain ⟨hs, hwrp⟩ := hsum hwr
            refine ⟨rfl, ?_, ?_, ?_⟩
            · simp only [entriesM, hmem, Multiset.add_cons]
            · simp only [subtreeWeight_node]
              omega
            · rw [wf_node_iff]
              refine ⟨?_, hwl, hwrp⟩
              omega
        | none =>
            have hrnil := popLeaf_none hpr
            subst hrnil
            cases hpl : l.popLeaf with
            | some p =>
                obtain ⟨le, lp⟩ := p
                obtain ⟨hmem, hsum⟩ := popLeaf_spec hpl
                obtain ⟨hs, hwlp⟩ := hsum hwl
                refine ⟨rfl, ?_, ?_, ?_⟩
                · simp only [entriesM, hmem, Multiset.cons_add, add_zero]
                · simp only [subtreeWeight_nil, subtreeWeight_node] at hw ⊢
                  omega
                · rw [wf_node_iff]
                  refine ⟨?_, hwlp, rfl⟩
                  simp only [subtreeWeight_nil, subtreeWeight_node] at hw ⊢
                  omega
            | none =>
                have hlnil := popLeaf_none hpl
                subst hlnil
                refine ⟨rfl, ?_, ?_, rfl⟩
                · simp [entriesM]
                · simp only [subtreeWeight_nil, subtreeWeight_node] at hw ⊢
                  omega
      · rw [containsId_node, if_neg he, Bool.or_eq_true] at hc
        by_cases hcl : l.containsId i = true
        · obtain ⟨x, hx, hd, hmem, hsw, hwf1⟩ := ihl hwl hcl
          refine ⟨x, hx, ?_⟩
          simp only [removeId, if_neg he, if_pos hcl]
          refine ⟨hd, ?_, ?_, ?_⟩
          · simp only [entriesM, hmem, Multiset.cons_add]
            exact Multiset.cons_swap _ _ _
          · simp only [subtreeWeight_node]
            omega
          · rw [wf_node_iff]
            refine ⟨?_, hwf1, hwr⟩
            omega
        · have hcr : r.containsId i = true := by
            rcases hc with h1 | h1
            · exact absurd h1 hcl
            · exact h1
          obtain ⟨x, hx, hd, hmem, hsw, hwf1⟩ := ihr hwr hcr
          refine ⟨x, hx, ?_⟩
          simp only [removeId, if_neg he, if_neg hcl, if_pos hcr]
          refine ⟨hd, ?_, ?_, ?_⟩
          · simp only [entriesM, hmem, Multiset.add_cons]
            exact Multiset.cons_swap _ _ _
          · simp only [subtreeWeight_node]
            omega
          · rw [wf_node_iff]
            refine ⟨?_, hwl, hwf1⟩
            omega

theorem containsId_iff {t : HostTree} {j : String} :
    t.containsId j = true ↔ j ∈ t.idsM := by
  induction t with
  | nil => simp [containsId, idsM, entriesM]
  | node en w l r ihl ihr =>
      rw [containsId_node]
      by_cases he : en.id = j
      · simp [he, idsM, entriesM]
      · simp only [if_neg he, Bool.or_eq_true, ihl, ihr, idsM, entriesM,
          Multiset.map_cons, Multiset.map_add, Multiset.mem_cons, Multiset.mem_add]
        constructor
        · intro h
          exact Or.inr h
        · intro h
          rcases h with h | h
          · exact absurd h.symm he
          · exact h

theorem wf_sumWeights {t : HostTree} (h : t.wf = true) :
    t.subtreeWeight = t.sumWeights := by
  induction t with
  | nil => simp [subtreeWeight, sumWeights, entriesM]
  | node en w l r ihl ihr =>
      rw [wf_node_iff] at h
      obtain ⟨hw, hl, hr⟩ := h
      have il := ihl hl
      have ir := ihr hr
      simp only [subtreeWeight_node, sumWeights, entriesM, Multiset.map_cons,
        Multiset.map_add, Multiset.sum_cons, Multiset.sum_add] at il ir ⊢
      omega

theorem idsM_insert (t : HostTree) (e : HostEntry) :
    (t.insert e).idsM = e.id ::ₘ t.idsM := by
  simp [idsM, entriesM_insert]

end HostTree

theorem HostDB.Insert_eq (hdb : HostDB) (e : HostEntry) :
    hdb.Insert e =
      if e.id ∈ hdb.activeHosts then
        (hdb, some "entry of given id already exists in host db")
      else
        ({ hdb with
            hostTree := hdb.hostTree.insert e,
            activeHosts := insert e.id hdb.activeHosts }, none) := by
  by_cases h : e.id ∈ hdb.activeHosts
  · simp [HostDB.Insert, h]
  · cases ht : hdb.hostTree with
    | nil => simp [HostDB.Insert, h, ht, HostTree.insert]
    | node en w l r => simp [HostDB.Insert, h, ht]

theorem DbInv_new : DbInv HostDB.New := by
  refine ⟨rfl, ?_, ?_, rfl⟩
  · intro j
    simp [HostDB.New, HostTree.containsId]
  · simp [HostDB.New, HostTree.idsM, HostTree.entriesM]

theorem Insert_inv {hdb : HostDB} {e : HostEntry} (h : DbInv hdb) :
    DbInv (hdb.Insert e).1 := by
  obtain ⟨hwf, hmem, hnd, hin⟩ := h
  rw [HostDB.Insert_eq]
  by_cases hc : e.id ∈ hdb.activeHosts
  · simp only [if_pos hc]
    exact ⟨hwf, hmem, hnd, hin⟩
  · simp only [if_neg hc]
    refine ⟨HostTree.wf_insert e hwf, ?_, ?_, hin⟩
    · intro j
      have h2 := hmem j
      rw [HostTree.containsId_iff] at h2 ⊢
      rw [HostTree.idsM_insert, Multiset.mem_cons, Finset.mem_insert, h2]
    · rw [HostTree.idsM_insert, Multiset.nodup_cons]
      refine ⟨?_, hnd⟩
      intro hmm
      exact hc ((hmem e.id).2 (HostTree.containsId_iff.2 hmm))

theorem Remove_inv {hdb : HostDB} {i : String} (h : DbInv hdb) :
    DbInv (hdb.Remove i).1 := by
  obtain ⟨hwf, hmem, hnd, hin⟩ := h
  unfold HostDB.Remove
  by_cases hc : i ∈ hdb.activeHosts
  · simp only [if_pos hc]
    have hct : hdb.hostTree.containsId i = true := (hmem i).1 hc
    obtain ⟨x, hx, hd, hment, hsw, hwf1⟩ := HostTree.removeId_spec hwf hct
    have hids : hdb.hostTree.idsM = x.id ::ₘ (hdb.hostTree.removeId i).1.idsM := by
      rw [HostTree.idsM, hment, Multiset.map_cons]
      rfl
    have hnd2 := hnd
    rw [hids, Multiset.nodup_cons] at hnd2
    refine ⟨hwf1, ?_, hnd2.2, hin⟩
    intro j
    show j ∈ hdb.activeHosts.erase i ↔
      (hdb.hostTree.removeId i).1.containsId j = true
    rw [Finset.mem_erase, HostTree.containsId_iff]
    have h2 := hmem j
    rw [HostTree.containsId_iff, hids, Multiset.mem_cons] at h2
    constructor
    · rintro ⟨hne, hj⟩
      rcases h2.1 hj with h3 | h3
      · exact absurd (h3.trans hx) hne
      · exact h3
    · intro hj
      refine ⟨?_, h2.2 (Or.inr hj)⟩
      intro hji
      apply hnd2.1
      have hxj : x.id = j := hx.trans hji.symm
      rw [hxj]
      exact hj
  · simp only [if_neg hc, hin]
    simp only [List.lookup, Option.isSome_none, Bool.false_eq_true, if_false]
    exact ⟨hwf, hmem, hnd, hin⟩

theorem removeEntries_cons_err {hdb hdb1 : HostDB} {e : HostEntry}
    {es : List HostEntry} {msg : String} (hre : hdb.Remove e.id = (hdb1, some msg)) :
    removeEntries hdb (e :: es) = (hdb1, some msg) := by
  simp [removeEntries, hre]

theorem removeEntries_cons_ok {hdb hdb1 : HostDB} {e : HostEntry}
    {es : List HostEntry} (hre : hdb.Remove e.id = (hdb1, none)) :
    removeEntries hdb (e :: es) = removeEntries hdb1 es := by
  simp [removeEntries, hre]

theorem rewindBlocks_cons_scanerr {h : Nat} {hdb : HostDB} {b : Block}
    {bs : List Block} {msg : String} (hb : findHostAnnouncements h b = .error msg) :
    rewindBlocks h hdb (b :: bs) = (hdb, some msg) := by
  simp [rewindBlocks, hb]

theorem rewindBlocks_cons_err {h : Nat} {hdb hdb1 : HostDB} {b : Block}
    {bs : List Block} {es : List HostEntry} {msg : String}
    (hb : findHostAnnouncements h b = .ok es)
    (hre : removeEntries hdb es = (hdb1, some msg)) :
    rewindBlocks h hdb (b :: bs) = (hdb1, some msg) := by
  simp [rewindBlocks, hb, hre]

theorem rewindBlocks_cons_ok {h : Nat} {hdb hdb1 : HostDB} {b : Block}
    {bs : List Block} {es : List HostEntry}
    (hb : findHostAnnouncements h b = .ok es)
    (hre : removeEntries hdb es = (hdb1, none)) :
    rewindBlocks h hdb (b :: bs) = rewindBlocks h hdb1 bs := by
  simp [rewindBlocks, hb, hre]

theorem insertEntries_cons_err {hdb hdb1 : HostDB} {e : HostEntry}
    {es : List HostEntry} {msg : String} (hre : hdb.Insert e = (hdb1, some msg)) :
    insertEntries hdb (e :: es) = (hdb1, some msg, [hdb]) := by
  simp [insertEntries, hre]

theorem insertEntries_cons_ok {hdb hdb1 : HostDB} {e : HostEntry}
    {es : List HostEntry} (hre : hdb.Insert e = (hdb1, none)) :
    insertEntries hdb (e :: es) =
      ((insertEntries hdb1 es).1, (insertEntries hdb1 es).2.1,
        hdb :: (insertEntries hdb1 es).2.2) := by
  simp [insertEntries, hre]

theorem applyBlocks_cons_scanerr {h : Nat} {hdb : HostDB} {b : Block}
    {bs : List Block} {msg : String} (hb : findHostAnnouncements h b = .error msg) :
    applyBlocks h hdb (b :: bs) = (hdb, some msg, []) := by
  simp [applyBlocks, hb]

theorem applyBlocks_cons_err {h : Nat} {hdb hdb1 : HostDB} {b : Block}
    {bs : List Block} {es : List HostEntry} {msg : String} {exp : List HostDB}
    (hb : findHostAnnouncements h b = .ok es)
    (hie : insertEntries hdb es = (hdb1, some msg, exp)) :
    applyBlocks h hdb (b :: bs) = (hdb1, some msg, exp) := by
  simp [applyBlocks, hb, hie]

theorem applyBlocks_cons_ok {h : Nat} {hdb hdb1 : HostDB} {b : Block}
    {bs : List Block} {es : List HostEntry} {exp : List HostDB}
    (hb : findHostAnnouncements h b = .ok es)
    (hie : insertEntries hdb es = (hdb1, none, exp)) :
    applyBlocks h hdb (b :: bs) =
      ((applyBlocks h hdb1 bs).1, (applyBlocks h hdb1 bs).2.1,
        exp ++ (applyBlocks h hdb1 bs).2.2) := by
  simp [applyBlocks, hb, hie]

theorem Update_eq_err {hdb hdb1 : HostDB} {h : Nat} {rw ap : List Block} {msg : String}
    (hrw : rewindBlocks h hdb rw = (hdb1, some msg)) :
    hdb.Update h rw ap = ⟨hdb1, some msg, []⟩ := by
  simp [HostDB.Update, hrw]

theorem Update_eq_ok {hdb hdb1 : HostDB} {h : Nat} {rw ap : List Block}
    (hrw : rewindBlocks h hdb rw = (hdb1, none)) :
    hdb.Update h rw ap =
      ⟨(applyBlocks h hdb1 ap).1, (applyBlocks h hdb1 ap).2.1,
        (applyBlocks h hdb1 ap).2.2⟩ := by
  simp [HostDB.Update, hrw]

theorem removeEntries_inv (es : List HostEntry) :
    ∀ {hdb : HostDB}, DbInv hdb → DbInv (removeEntries hdb es).1 := by
  induction es with
  | nil =>
      intro hdb h
      simpa [removeEntries] using h
  | cons e es ih =>
      intro hdb h
      have h1 : DbInv (hdb.Remove e.id).1 := Remove_inv h
      cases hre : hdb.Remove e.id with
      | mk hdb1 err =>
          rw [hre] at h1
          cases err with
          | none => rw [removeEntries_cons_ok hre]; exact ih h1
          | some msg => rw [removeEntries_cons_err hre]; exact h1

theorem rewindBlocks_inv (bs : List Block) (h : Nat) :
    ∀ {hdb : HostDB}, DbInv hdb → DbInv (rewindBlocks h hdb bs).1 := by
  induction bs with
  | nil =>
      intro hdb hi
      simpa [rewindBlocks] using hi
  | cons b bs ih =>
      intro hdb hi
      cases hb : findHostAnnouncements h b with
      | error msg => rw [rewindBlocks_cons_scanerr hb]; exact hi
      | ok entries =>
          have h1 : DbInv (removeEntries hdb entries).1 :=
            removeEntries_inv entries hi
          cases hre : removeEntries hdb entries with
          | mk hdb1 err =>
              rw [hre] at h1
              cases err with
              | none => rw [rewindBlocks_cons_ok hb hre]; exact ih h1
              | some msg => rw [rewindBlocks_cons_err hb hre]; exact h1

theorem insertEntries_inv (es : List HostEntry) :
    ∀ {hdb : HostDB}, DbInv hdb → DbInv (insertEntries hdb es).1 := by
  induction es with
  | nil =>
      intro hdb h
      simpa [insertEntries] using h
  | cons e es ih =>
      intro hdb h
      have h1 : DbInv (hdb.Insert e).1 := Insert_inv h
      cases hre : hdb.Insert e with
      | mk hdb1 err =>
          rw [hre] at h1
          cases err with
          | none => rw [insertEntries_cons_ok hre]; exact ih h1
          | some msg => rw [insertEntries_cons_err hre]; exact h1

theorem applyBlocks_inv (bs : List Block) (h : Nat) :
    ∀ {hdb : HostDB}, DbInv hdb → DbInv (applyBlocks h hdb bs).1 := by
  induction bs with
  | nil =>
      intro hdb hi
      simpa [applyBlocks] using hi
  | cons b bs ih =>
      intro hdb hi
      cases hb : findHostAnnouncements h b with
      | error msg => rw [applyBlocks_cons_scanerr hb]; exact hi
      | ok entries =>
          have h1 : DbInv (insertEntries hdb entries).1 :=
            insertEntries_inv entries hi
          cases hie : insertEntries hdb entries with
          | mk hdb1 q =>
              obtain ⟨err, exp⟩ := q
              rw [hie] at h1
              cases err with
              | none => rw [applyBlocks_cons_ok hb hie]; exact ih h1
              | some msg => rw [applyBlocks_cons_err hb hie]; exact h1

theorem Update_inv {hdb : HostDB} {h : Nat} {rw ap : List Block} (hi : DbInv hdb) :
    DbInv (hdb.Update h rw ap).state := by
  have h1 : DbInv (rewindBlocks h hdb rw).1 := rewindBlocks_inv rw h hi
  cases hrw : rewindBlocks h hdb rw with
  | mk hdb1 err =>
      rw [hrw] at h1
      cases err with
      | some msg => rw [Update_eq_err hrw]; exact h1
      | none => rw [Update_eq_ok hrw]; exact applyBlocks_inv ap h h1

theorem Reachable_inv {hdb : HostDB} (h : Reachable hdb) : DbInv hdb := by
  induction h with
  | new => exact DbInv_new
  | insert e _ ih => exact Insert_inv ih
  | remove i _ ih => exact Remove_inv ih
  | update hn rw ap _ ih => exact Update_inv ih

theorem wfP_of_wf {t : HostTree} (h : t.wf = true) : HostTree.WfP t := by
  induction t with
  | nil => trivial
  | node e w l r ihl ihr =>
      rw [HostTree.wf_node_iff] at h
      exact ⟨h.1, ihl h.2.1, ihr h.2.2⟩

theorem Remove_active (hdb : HostDB) (i : String) :
    (hdb.Remove i).1.activeHosts ⊆ hdb.activeHosts ∧
      i ∉ (hdb.Remove i).1.activeHosts := by
  unfold HostDB.Remove
  by_cases hc : i ∈ hdb.activeHosts
  · simp only [if_pos hc]
    exact ⟨Finset.erase_subset _ _, Finset.not_mem_erase _ _⟩
  · simp only [if_neg hc]
    split
    · exact ⟨Finset.Subset.refl _, hc⟩
    · exact ⟨Finset.Subset.refl _, hc⟩

theorem removeEntries_active (es : List HostEntry) :
    ∀ (hdb : HostDB),
      (removeEntries hdb es).1.activeHosts ⊆ hdb.activeHosts ∧
        ((removeEntries hdb es).2 = none →
          ∀ e ∈ es, e.id ∉ (removeEntries hdb es).1.activeHosts) := by
  induction es with
  | nil =>
      intro hdb
      refine ⟨Finset.Subset.refl _, ?_⟩
      intro _ e he
      simp at he
  | cons e es ih =>
      intro hdb
      have hra := Remove_active hdb e.id
      cases hre : hdb.Remove e.id with
      | mk hdb1 err =>
          rw [hre] at hra
          cases err with
          | some msg =>
              rw [removeEntries_cons_err hre]
              refine ⟨hra.1, ?_⟩
              intro hnone
              simp at hnone
          | none =>
              rw [removeEntries_cons_ok hre]
              refine ⟨Finset.Subset.trans (ih hdb1).1 hra.1, ?_⟩
              intro hnone e2 he2
              rcases List.mem_cons.1 he2 with he2 | he2
              · subst he2
                intro hmm
                exact hra.2 ((ih hdb1).1 hmm)
              · exact (ih hdb1).2 hnone e2 he2

theorem rewindBlocks_active (bs : List Block) (h : Nat) :
    ∀ (hdb : HostDB),
      (rewindBlocks h hdb bs).1.activeHosts ⊆ hdb.activeHosts ∧
        ((rewindBlocks h hdb bs).2 = none →
          ∀ b ∈ bs, ∀ es, findHostAnnouncements h b = .ok es →
            ∀ e ∈ es, e.id ∉ (rewindBlocks h hdb bs).1.activeHosts) := by
  induction bs with
  | nil =>
      intro hdb
      refine ⟨Finset.Subset.refl _, ?_⟩
      intro _ b hb
      simp at hb
  | cons b bs ih =>
      intro hdb
      cases hb : findHostAnnouncements h b with
      | error msg =>
          rw [rewindBlocks_cons_scanerr hb]
          refine ⟨Finset.Subset.refl _, ?_⟩
          intro hnone
          simp at hnone
      | ok entries =>
          have hrea := removeEntries_active entries hdb
          cases hre : removeEntries hdb entries with
          | mk hdb1 err =>
              rw [hre] at hrea
              cases err with
              | some msg =>
                  rw [rewindBlocks_cons_err hb hre]
                  refine ⟨hrea.1, ?_⟩
                  intro hnone
                  simp at hnone
              | none =>
                  rw [rewindBlocks_cons_ok hb hre]
                  refine ⟨Finset.Subset.trans (ih hdb1).1 hrea.1, ?_⟩
                  intro hnone b2 hb2 es hes e he
                  rcases List.mem_cons.1 hb2 with hb2 | hb2
                  · subst hb2
                    rw [hb] at hes
                    have hese : es = entries := by
                      injection hes with h2
                      exact h2.symm
                    subst hese
                    intro hmm
                    exact hrea.2 rfl e he ((ih hdb1).1 hmm)
                  · exact (ih hdb1).2 hnone b2 hb2 es hes e he

theorem Update_nil_apply (hdb : HostDB) (h : Nat) (rw : List Block) :
    hdb.Update h rw [] =
      ⟨(rewindBlocks h hdb rw).1, (rewindBlocks h hdb rw).2, []⟩ := by
  cases hrw : rewindBlocks h hdb rw with
  | mk s err =>
      cases err with
      | some msg => rw [Update_eq_err hrw]
      | none =>
          rw [Update_eq_ok hrw]
          simp [applyBlocks]

theorem Update_cons_ok {hdb hdb1 : HostDB} {h : Nat} {b : Block}
    {rw ap : List Block} {es : List HostEntry}
    (hb : findHostAnnouncements h b = .ok es)
    (hre : removeEntries hdb es = (hdb1, none)) :
    hdb.Update h (b :: rw) ap = hdb1.Update h rw ap := by
  unfold HostDB.Update
  rw [rewindBlocks_cons_ok hb hre]

theorem lookup_filter_self (l : List (String × HostEntry)) (i : String) :
    (l.filter (fun p => p.1 != i)).lookup i = none := by
  induction l with
  | nil => rfl
  | cons p l ih =>
      obtain ⟨k, v⟩ := p
      by_cases hk : k = i
      · simp [List.filter_cons, hk, ih]
      · simp only [List.filter_cons]
        have hb : (k, v).1 != i := by
          simp [hk]
        rw [if_pos hb]
        rw [List.lookup_cons]
        have : (i == k) = false := by
          simp
          intro hik
          exact hk hik.symm
        rw [this]
        exact ih

theorem lookup_filter_ne {j i : String} (l : List (String × HostEntry))
    (hne : j ≠ i) :
    (l.filter (fun p => p.1 != i)).lookup j = l.lookup j := by
  induction l with
  | nil => rfl
  | cons p l ih =>
      obtain ⟨k, v⟩ := p
      by_cases hk : k = i
      · have hb : ¬((k, v).1 != i) := by
          simp [hk]
        rw [List.filter_cons, if_neg hb, List.lookup_cons]
        have hjk : (j == k) = false := by
          simp
          intro hj
          exact hne (hj.trans hk)
        rw [hjk]
        exact ih
      · have hb : (k, v).1 != i := by
          simp [hk]
        rw [List.filter_cons, if_pos hb]
        rw [List.lookup_cons, List.lookup_cons]
        cases hjk : j == k with
        | true => rfl
        | false => exact ih

theorem Remove_err_state {hdb : HostDB} {i msg : String}
    (h : (hdb.Remove i).2 = some msg) : (hdb.Remove i).1 = hdb := by
  by_cases h1 : i ∈ hdb.activeHosts
  · simp [HostDB.Remove, h1] at h
  · by_cases h2 : (hdb.inactiveHosts.lookup i).isSome
    · simp [HostDB.Remove, h1, h2] at h
    · simp [HostDB.Remove, h1, h2]

theorem Insert_err_state {hdb : HostDB} {e : HostEntry} {msg : String}
    (h : (hdb.Insert e).2 = some msg) : (hdb.Insert e).1 = hdb := by
  rw [HostDB.Insert_eq] at h ⊢
  by_cases h1 : e.id ∈ hdb.activeHosts
  · rw [if_pos h1]
  · rw [if_neg h1] at h
    simp at h

theorem removeEntries_append_ok (es1 : List HostEntry) :
    ∀ {s s1 : HostDB} (rest : List HostEntry),
      removeEntries s es1 = (s1, none) →
      removeEntries s (es1 ++ rest) = removeEntries s1 rest := by
  induction es1 with
  | nil =>
      intro s s1 rest h
      have h0 : (s, (none : Option String)) = (s1, none) := h
      injection h0 with ha hb
      subst ha
      rfl
  | cons e es1 ih =>
      intro s s1 rest h
      cases hre : s.Remove e.id with
      | mk sp err =>
          cases err with
          | some msg =>
              rw [removeEntries_cons_err hre] at h
              injection h with ha hb
              simp at hb
          | none =>
              rw [removeEntries_cons_ok hre] at h
              rw [List.cons_append, removeEntries_cons_ok hre]
              exact ih rest h

theorem removeEntries_fail {s s1 : HostDB} {es1 es2 : List HostEntry}
    {e : HostEntry} {msg : String}
    (h1 : removeEntries s es1 = (s1, none))
    (h2 : (s1.Remove e.id).2 = some msg) :
    removeEntries s (es1 ++ e :: es2) = (s1, some msg) := by
  have hs := Remove_err_state h2
  have hre : s1.Remove e.id = (s1, some msg) := by
    cases hq : s1.Remove e.id with
    | mk sp err =>
        rw [hq] at hs h2
        have hs2 : sp = s1 := hs
        have h22 : err = some msg := h2
        rw [hs2, h22]
  rw [removeEntries_append_ok es1 _ h1, removeEntries_cons_err hre]

theorem rewindBlocks_append_ok (pre : List Block) (h : Nat) :
    ∀ {hdb s : HostDB} (rest : List Block),
      rewindBlocks h hdb pre = (s, none) →
      rewindBlocks h hdb (pre ++ rest) = rewindBlocks h s rest := by
  induction pre with
  | nil =>
      intro hdb s rest hp
      have h0 : (hdb, (none : Option String)) = (s, none) := hp
      injection h0 with ha hb
      subst ha
      rfl
  | cons b pre ih =>
      intro hdb s rest hp
      cases hb : findHostAnnouncements h b with
      | error m =>
          rw [rewindBlocks_cons_scanerr hb] at hp
          injection hp with ha hb2
          simp at hb2
      | ok es =>
          cases hre : removeEntries hdb es with
          | mk sp err =>
              cases err with
              | some m =>
                  rw [rewindBlocks_cons_err hb hre] at hp
                  injection hp with ha hb2
                  simp at hb2
              | none =>
                  rw [rewindBlocks_cons_ok hb hre] at hp
                  rw [List.cons_append, rewindBlocks_cons_ok hb hre]
                  exact ih rest hp

theorem insertEntries_append_ok (es1 : List HostEntry) :
    ∀ {s s1 : HostDB} {exp : List HostDB} (rest : List HostEntry),
      insertEntries s es1 = (s1, none, exp) →
      insertEntries s (es1 ++ rest) =
        ((insertEntries s1 rest).1, (insertEntries s1 rest).2.1,
          exp ++ (insertEntries s1 rest).2.2) := by
  induction es1 with
  | nil =>
      intro s s1 exp rest h
      have h0 : ((s, none, []) : HostDB × Option String × List HostDB) =
          (s1, none, exp) := h
      injection h0 with ha hbc
      injection hbc with hb hc
      subst ha
      subst hc
      rfl
  | cons e es1 ih =>
      intro s s1 exp rest h
      cases hie : s.Insert e with
      | mk sp err =>
          cases err with
          | some msg =>
              rw [insertEntries_cons_err hie] at h
              injection h with ha hbc
              injection hbc with hb hc
              simp at hb
          | none =>
              rw [insertEntries_cons_ok hie] at h
              injection h with ha hbc
              injection hbc with hb hc
              subst hc
              have hq : insertEntries sp es1 =
                  (s1, none, (insertEntries sp es1).2.2) := by
                rw [← ha, ← hb]
              rw [List.cons_append, insertEntries_cons_ok hie, ih rest hq]
              rfl

theorem applyBlocks_append_ok (pre : List Block) (h : Nat) :
    ∀ {s s1 : HostDB} {exp : List HostDB} (rest : List Block),
      applyBlocks h s pre = (s1, none, exp) →
      applyBlocks h s (pre ++ rest) =
        ((applyBlocks h s1 rest).1, (applyBlocks h s1 rest).2.1,
          exp ++ (applyBlocks h s1 rest).2.2) := by
  induction pre with
  | nil =>
      intro s s1 exp rest hp
      have h0 : ((s, none, []) : HostDB × Option String × List HostDB) =
          (s1, none, exp) := hp
      injection h0 with ha hbc
      injection hbc with hb hc
      subst ha
      subst hc
      rfl
  | cons b pre ih =>
      intro s s1 exp rest hp
      cases hb : findHostAnnouncements h b with
      | error m =>
          rw [applyBlocks_cons_scanerr hb] at hp
          injection hp with ha hbc
          injection hbc with hb2 hc
          simp at hb2
      | ok es =>
          cases hie : insertEntries s es with
          | mk sp q =>
              obtain ⟨err, exp1⟩ := q
              cases err with
              | some m =>
                  rw [applyBlocks_cons_err hb hie] at hp
                  injection hp with ha hbc
                  injection hbc with hb2 hc
                  simp at hb2
              | none =>
                  rw [applyBlocks_cons_ok hb hie] at hp
                  injection hp with ha hbc
                  injection hbc with hb2 hc
                  subst hc
                  have hq : applyBlocks h sp pre =
                      (s1, none, (applyBlocks h sp pre).2.2) := by
                    rw [← ha, ← hb2]
                  rw [List.cons_append, applyBlocks_cons_ok hb hie, ih rest hq]
                  simp [List.append_assoc]

/-- A scanner failure on a rewound block is returned by `Update` at
once: the state keeps exactly the effect of the rewound blocks before
the failing one, nothing after it is processed, and no unlocked
window occurs. -/
theorem update_scanerr_in_rewind (hdb s : HostDB) (h : Nat)
    (pre post applied : List Block) (msg : String)
    (hpre : rewindBlocks h hdb pre = (s, none)) :
    hdb.Update h (pre ++ Except.error msg :: post) applied =
      ⟨s, some msg, []⟩ := by
  induction pre generalizing hdb with
  | nil =>
      have hs : s = hdb := by
        have : (hdb, (none : Option String)) = (s, none) := hpre
        injection this with h1 h2
        exact h1.symm
      subst hs
      have hb : findHostAnnouncements h (Except.error msg : Block) =
          .error msg := rfl
      rw [List.nil_append]
      exact Update_eq_err (rewindBlocks_cons_scanerr hb)
  | cons b pre ih =>
      cases hb : findHostAnnouncements h b with
      | error m =>
          rw [rewindBlocks_cons_scanerr hb] at hpre
          injection hpre with h1 h2
          simp at h2
      | ok es =>
          cases hre : removeEntries hdb es with
          | mk hdb1 err =>
              cases err with
              | some m =>
                  rw [rewindBlocks_cons_err hb hre] at hpre
                  injection hpre with h1 h2
                  simp at h2
              | none =>
                  rw [rewindBlocks_cons_ok hb hre] at hpre
                  rw [List.cons_append, Update_cons_ok hb hre]
                  exact ih hdb1 hpre

/-- C1 counterexample: applying `Update` to a container holding X and Y
with `rewoundBlocks` announcing Y and one applied block announcing Z
exposes, during an unlocked window inside the call, exactly the state
in which Y has already been rewound but Z has not yet been inserted —
a reader can observe a partially-completed reorganization. -/
theorem c1_counterexample :
    (dbXY.Update 0 [Except.ok [entryY]] [Except.ok [entryZ]]).exposed =
      [⟨HostTree.node entryX 5 HostTree.nil HostTree.nil, {"X"}, []⟩] := by
  decide

/-- C1 (amended): `Update` holds the exclusive lock without
interruption for the whole rewind phase, and hence for every call
whose applied-block list is empty no intermediate state is ever
exposed to readers; the lock is released only around the `Insert` of
each applied announcement. -/
theorem c1_update_lock_held_for_pure_rewind (hdb : HostDB) (h : Nat)
    (rw : List Block) :
    (hdb.Update h rw []).exposed = [] := by
  cases hrw : rewindBlocks h hdb rw with
  | mk s err =>
      cases err with
      | some msg => rw [Update_eq_err hrw]
      | none =>
          rw [Update_eq_ok hrw]
          simp [applyBlocks]

/-- C2 counterexample: on an empty container, `Update` with one
rewound block whose scan succeeds (announcing X) returns an error —
the `Remove` of the never-inserted identifier fails — so `Update` can
fail even though the block-scanning collaborator failed on no
block. -/
theorem c2_counterexample :
    (HostDB.New.Update 0 [Except.ok [entryX]] []).error =
      some "id not found in host database" := by
  decide

/-- C2 (amended): `Update` fails exactly at the first failing
delegated step, with immediate return and no rollback in every case.
Conjunct 1: a scanner failure on a rewound block returns the scanner's
error with the state produced by the previously rewound blocks kept,
nothing further processed and no unlocked window.  Conjunct 2: a
`Remove` failure (NotFound) on a rewound announcement likewise returns
that error at once, keeping the state of every announcement removed
before it.  Conjunct 3: a scanner failure on an applied block returns
the scanner's error keeping the applied announcements of the earlier
blocks and exposing no further states.  Conjunct 4: an `Insert`
failure (AlreadyExists) on an applied announcement returns that error
at once, keeping all earlier insertions (the window around the failing
`Insert` is exposed).  Conjunct 5: when every delegated step succeeds,
`Update` returns no error — so scanner, `Remove` and `Insert` failures
are the only error sources. -/
theorem c2_error_propagation :
    (∀ (hdb s : HostDB) (h : Nat) (pre post applied : List Block) (msg : String),
      rewindBlocks h hdb pre = (s, none) →
      hdb.Update h (pre ++ Except.error msg :: post) applied =
        ⟨s, some msg, []⟩) ∧
    (∀ (hdb s s1 : HostDB) (h : Nat) (pre post applied : List Block)
        (es1 es2 : List HostEntry) (e : HostEntry) (msg : String),
      rewindBlocks h hdb pre = (s, none) →
      removeEntries s es1 = (s1, none) →
      (s1.Remove e.id).2 = some msg →
      hdb.Update h (pre ++ Except.ok (es1 ++ e :: es2) :: post) applied =
        ⟨s1, some msg, []⟩) ∧
    (∀ (hdb s s1 : HostDB) (h : Nat) (rwb preA postA : List Block)
        (exp : List HostDB) (msg : String),
      rewindBlocks h hdb rwb = (s, none) →
      applyBlocks h s preA = (s1, none, exp) →
      hdb.Update h rwb (preA ++ Except.error msg :: postA) =
        ⟨s1, some msg, exp⟩) ∧
    (∀ (hdb s s1 s2 : HostDB) (h : Nat) (rwb preA postA : List Block)
        (exp exp2 : List HostDB) (es1 es2 : List HostEntry) (e : HostEntry)
        (msg : String),
      rewindBlocks h hdb rwb = (s, none) →
      applyBlocks h s preA = (s1, none, exp) →
      insertEntries s1 es1 = (s2, none, exp2) →
      (s2.Insert e).2 = some msg →
      hdb.Update h rwb (preA ++ Except.ok (es1 ++ e :: es2) :: postA) =
        ⟨s2, some msg, exp ++ (exp2 ++ [s2])⟩) ∧
    (∀ (hdb s sf : HostDB) (h : Nat) (rwb ap : List Block) (exp : List HostDB),
      rewindBlocks h hdb rwb = (s, none) →
      applyBlocks h s ap = (sf, none, exp) →
      hdb.Update h rwb ap = ⟨sf, none, exp⟩) := by
  refine ⟨update_scanerr_in_rewind, ?_, ?_, ?_, ?_⟩
  · intro hdb s s1 h pre post applied es1 es2 e msg hpre h1 h2
    have hfb : removeEntries s (es1 ++ e :: es2) = (s1, some msg) :=
      removeEntries_fail h1 h2
    have hscan : findHostAnnouncements h
        (Except.ok (es1 ++ e :: es2) : Block) = .ok (es1 ++ e :: es2) := rfl
    have hrw2 : rewindBlocks h hdb
        (pre ++ Except.ok (es1 ++ e :: es2) :: post) = (s1, some msg) := by
      rw [rewindBlocks_append_ok pre h _ hpre]
      exact rewindBlocks_cons_err hscan hfb
    exact Update_eq_err hrw2
  · intro hdb s s1 h rwb preA postA exp msg hrw hap
    have hscan : findHostAnnouncements h (Except.error msg : Block) =
        .error msg := rfl
    have happ : applyBlocks h s (preA ++ Except.error msg :: postA) =
        (s1, some msg, exp) := by
      rw [applyBlocks_append_ok preA h _ hap, applyBlocks_cons_scanerr hscan]
      simp
    rw [Update_eq_ok hrw, happ]
  · intro hdb s s1 s2 h rwb preA postA exp exp2 es1 es2 e msg hrw hap hie hfail
    have hins : s2.Insert e = (s2, some msg) := by
      have hs := Insert_err_state hfail
      cases hq : s2.Insert e with
      | mk sp err =>
          rw [hq] at hs hfail
          have hs2 : sp = s2 := hs
          have hf2 : err = some msg := hfail
          rw [hs2, hf2]
    have hscan : findHostAnnouncements h
        (Except.ok (es1 ++ e :: es2) : Block) = .ok (es1 ++ e :: es2) := rfl
    have hie2 : insertEntries s1 (es1 ++ e :: es2) =
        (s2, some msg, exp2 ++ [s2]) := by
      rw [insertEntries_append_ok es1 _ hie, insertEntries_cons_err hins]
    have happ : applyBlocks h s
        (preA ++ Except.ok (es1 ++ e :: es2) :: postA) =
        (s2, some msg, exp ++ (exp2 ++ [s2])) := by
      rw [applyBlocks_append_ok preA h _ hap, applyBlocks_cons_err hscan hie2]
    rw [Update_eq_ok hrw, happ]
  · intro hdb s sf h rwb ap exp hrw hap
    rw [Update_eq_ok hrw, hap]

/-- C2 witness: the five conjuncts at concrete inputs — a rewound
scan failure on the empty container, a rewound NotFound after one
successful removal, an applied scan failure, an applied duplicate
insertion (exposing its window), and a fully successful call. -/
theorem c2_error_propagation_witness :
    (HostDB.Update HostDB.New 0 [Except.error "bad scan"] [] =
      ⟨HostDB.New, some "bad scan", []⟩) ∧
    (dbXY.Update 0 [Except.ok [entryY, entryY]] [] =
      ⟨⟨HostTree.node entryX 5 HostTree.nil HostTree.nil, {"X"}, []⟩,
        some "id not found in host database", []⟩) ∧
    (dbXY.Update 0 [] [Except.error "bad apply scan"] =
      ⟨dbXY, some "bad apply scan", []⟩) ∧
    (dbXY.Update 0 [] [Except.ok [entryX]] =
      ⟨dbXY, some "entry of given id already exists in host db", [dbXY]⟩) ∧
    (dbXY.Update 0 [] [] = ⟨dbXY, none, []⟩) :=
  ⟨c2_error_propagation.1 HostDB.New HostDB.New 0 [] [] [] "bad scan" rfl,
    c2_error_propagation.2.1 dbXY dbXY
      ⟨HostTree.node entryX 5 HostTree.nil HostTree.nil, {"X"}, []⟩ 0 [] [] []
      [entryY] [] entryY "id not found in host database" rfl (by decide)
      (by decide),
    c2_error_propagation.2.2.1 dbXY dbXY dbXY 0 [] [] [] [] "bad apply scan"
      rfl rfl,
    c2_error_propagation.2.2.2.1 dbXY dbXY dbXY dbXY 0 [] [] [] [] [] [] []
      entryX "entry of given id already exists in host db" rfl rfl rfl
      (by decide),
    c2_error_propagation.2.2.2.2 dbXY dbXY dbXY 0 [] [] [] rfl rfl⟩

/-- C3: in every container state reachable from `New` by `Insert`,
`Remove` and `Update`, the key set of the active index and the key set
of the inactive index are disjoint: no active identifier has a
mapping in the inactive index. -/
theorem c3_active_inactive_disjoint (hdb : HostDB) (hr : Reachable hdb)
    (j : String) (_hj : j ∈ hdb.activeHosts) :
    hdb.inactiveHosts.lookup j = none := by
  obtain ⟨_, _, _, hin⟩ := Reachable_inv hr
  rw [hin]
  rfl

/-- C3 witness: after inserting X into the empty container, the active
identifier X has no inactive mapping. -/
theorem c3_active_inactive_disjoint_witness :
    ((HostDB.New.Insert entryX).1).inactiveHosts.lookup "X" = none :=
  c3_active_inactive_disjoint (HostDB.New.Insert entryX).1
    (Reachable.insert entryX Reachable.new) "X" (by decide)

/-- C4: in every tree state reachable by any sequence of `Insert` and
`Remove` operations from the empty container (and also through
`Update`), every node satisfies
subtreeWeight == ownWeight + subtreeWeight(left) + subtreeWeight(right),
with an absent child contributing 0. -/
theorem c4_weight_invariant (hdb : HostDB) (hr : Reachable hdb) :
    HostTree.WfP hdb.hostTree :=
  wfP_of_wf (Reachable_inv hr).1

/-- C4 witness: the weight invariant holds in the concrete container
holding A, B and C. -/
theorem c4_weight_invariant_witness : HostTree.WfP dbABC.hostTree :=
  c4_weight_invariant dbABC
    (Reachable.insert entryC (Reachable.insert entryB
      (Reachable.insert entryA Reachable.new)))

/-- C5: after any sequence of `Insert` and `Remove` (and `Update`)
operations from the empty container, the root's cached subtree weight
equals the sum of the weights of the entries stored in the tree —
which are exactly the currently-active entries, as the third conjunct
states — and the root is null exactly when no active entries
remain. -/
theorem c5_conservation (hdb : HostDB) (hr : Reachable hdb) :
    hdb.hostTree.subtreeWeight = hdb.hostTree.sumWeights ∧
      (hdb.hostTree = HostTree.nil ↔ hdb.activeHosts = ∅) ∧
      (∀ j, j ∈ hdb.activeHosts ↔ hdb.hostTree.containsId j = true) := by
  obtain ⟨hwf, hmem, hnd, hin⟩ := Reachable_inv hr
  refine ⟨HostTree.wf_sumWeights hwf, ?_, hmem⟩
  constructor
  · intro hnil
    rw [Finset.eq_empty_iff_forall_not_mem]
    intro j hj
    have hc := (hmem j).1 hj
    rw [hnil] at hc
    simp [HostTree.containsId] at hc
  · intro hemp
    cases htree : hdb.hostTree with
    | nil => rfl
    | node en w l r =>
        have hc : hdb.hostTree.containsId en.id = true := by
          rw [htree, HostTree.containsId_node]
          simp
        have := (hmem en.id).2 hc
        rw [hemp] at this
        simp at this

/-- C5 witness: in the concrete container holding X and Y the root
weight equals the entry-weight sum. -/
theorem c5_conservation_witness :
    dbXY.hostTree.subtreeWeight = dbXY.hostTree.sumWeights :=
  (c5_conservation dbXY
    (Reachable.insert entryY (Reachable.insert entryX Reachable.new))).1

/-- C6: after applying X then Y, `Update` with `rewoundBlocks`
announcing Y and no applied blocks removes Y while X remains active
(concrete part); and in general, for a pure-rewind `Update` that
returns no error, every announcement identifier the scanner extracts
from any rewound block is absent from the active index afterwards
(each was removed via `Remove`), and the active set only shrinks.
All rewound blocks are processed before any applied block, as the
definition of `Update` factors through the rewind phase first. -/
theorem c6_reorg_rewind :
    ((dbXY.Update 0 [Except.ok [entryY]] []).error = none ∧
      (dbXY.Update 0 [Except.ok [entryY]] []).state.activeHosts = {"X"}) ∧
    (∀ (hdb : HostDB) (h : Nat) (rw : List Block),
      (hdb.Update h rw []).error = none →
      (hdb.Update h rw []).state.activeHosts ⊆ hdb.activeHosts ∧
        (∀ b ∈ rw, ∀ es, findHostAnnouncements h b = .ok es →
          ∀ e ∈ es, e.id ∉ (hdb.Update h rw []).state.activeHosts)) := by
  constructor
  · constructor
    · decide
    · decide
  · intro hdb h rw hok
    rw [Update_nil_apply] at hok ⊢
    have hnone : (rewindBlocks h hdb rw).2 = none := hok
    have hact := rewindBlocks_active rw h hdb
    refine ⟨hact.1, ?_⟩
    intro b hb es hes e he
    exact hact.2 hnone b hb es hes e he

/-- C6 witness: in the concrete reorg, Y is no longer active after the
rewind. -/
theorem c6_reorg_rewind_witness :
    "Y" ∉ (dbXY.Update 0 [Except.ok [entryY]] []).state.activeHosts :=
  (c6_reorg_rewind.2 dbXY 0 [Except.ok [entryY]] (by decide)).2
    (Except.ok [entryY]) (List.mem_cons_self _ _) [entryY] rfl entryY
    (by decide)

/-- C7: inserting an entry whose identifier is already active fails
with the duplicate error and performs no mutation at all — the
returned state is the old state, so the tree, the active index with
the originally stored entry, and the inactive index are unchanged. -/
theorem c7_duplicate_insert_no_mutation (hdb : HostDB) (e : HostEntry)
    (h : e.id ∈ hdb.activeHosts) :
    hdb.Insert e = (hdb, some "entry of given id already exists in host db") := by
  rw [HostDB.Insert_eq, if_pos h]

/-- C7 witness: re-inserting identifier X with a different weight
fails and leaves the container exactly as it was. -/
theorem c7_duplicate_insert_no_mutation_witness :
    (HostDB.New.Insert entryX).1.Insert ⟨"X", 42⟩ =
      ((HostDB.New.Insert entryX).1,
        some "entry of given id already exists in host db") :=
  c7_duplicate_insert_no_mutation (HostDB.New.Insert entryX).1 ⟨"X", 42⟩
    (by decide)

/-- C8: `Remove` is a three-way case split.  An active identifier is
removed from the active index, its node is removed from the tree, and
the call succeeds (the inactive index untouched).  An identifier found
only in the inactive index has that mapping deleted — and only that
mapping — with tree and active index untouched.  Otherwise the call
fails with the not-found error and the state is unchanged. -/
theorem c8_remove_cases (hdb : HostDB) (i : String) :
    (i ∈ hdb.activeHosts →
      hdb.Remove i =
        ({ hdb with
            activeHosts := hdb.activeHosts.erase i,
            hostTree := (hdb.hostTree.removeId i).1 }, none)) ∧
    (i ∉ hdb.activeHosts → (hdb.inactiveHosts.lookup i).isSome = true →
      (hdb.Remove i).2 = none ∧
        (hdb.Remove i).1.hostTree = hdb.hostTree ∧
        (hdb.Remove i).1.activeHosts = hdb.activeHosts ∧
        (hdb.Remove i).1.inactiveHosts.lookup i = none ∧
        (∀ j, j ≠ i →
          (hdb.Remove i).1.inactiveHosts.lookup j = hdb.inactiveHosts.lookup j)) ∧
    (i ∉ hdb.activeHosts → hdb.inactiveHosts.lookup i = none →
      hdb.Remove i = (hdb, some "id not found in host database")) := by
  refine ⟨?_, ?_, ?_⟩
  · intro hc
    unfold HostDB.Remove
    rw [if_pos hc]
  · intro hc hsome
    unfold HostDB.Remove
    rw [if_neg hc, if_pos hsome]
    refine ⟨rfl, rfl, rfl, ?_, ?_⟩
    · exact lookup_filter_self _ _
    · intro j hj
      exact lookup_filter_ne _ hj
  · intro hc hnone
    unfold HostDB.Remove
    rw [if_neg hc, if_neg (by simp [hnone])]

/-- C8 witness: the three branches at concrete inputs — removing the
active Y, removing the inactive-only I, and removing the unknown Q. -/
theorem c8_remove_cases_witness :
    (dbXY.Remove "Y" =
      ({ dbXY with
          activeHosts := dbXY.activeHosts.erase "Y",
          hostTree := (dbXY.hostTree.removeId "Y").1 }, none)) ∧
    ((dbInactive.Remove "I").2 = none ∧
      (dbInactive.Remove "I").1.inactiveHosts.lookup "I" = none) ∧
    (dbXY.Remove "Q" = (dbXY, some "id not found in host database")) :=
  ⟨(c8_remove_cases dbXY "Y").1 (by decide),
    ⟨((c8_remove_cases dbInactive "I").2.1 (by decide) (by decide)).1,
      ((c8_remove_cases dbInactive "I").2.1 (by decide) (by decide)).2.2.2.1⟩,
    (c8_remove_cases dbXY "Q").2.2 (by decide) (by decide)⟩

/-- C9 counterexample: after inserting A(10), B(30) and C(60) into the
empty container, the weighted lookup at 5 does not return A — the
placement policy puts B in the left subtree of A, so B owns the
interval starting at 0. -/
theorem c9_counterexample :
    dbABC.hostTree.entryAtWeight 5 ≠ some entryA := by
  decide

/-- C9 (amended): with the placement policy of the spec (descend into
the lighter side, ties to the left), the tree built by inserting
A(10), B(30), C(60) has in-order intervals B:[0,30), A:[30,40),
C:[40,100) — the partition is into contiguous per-entry intervals
proportional to weight, but ordered by tree position, not insertion
order — so entryAtWeight(5) = B, entryAtWeight(15) = B,
entryAtWeight(50) = C, entryAtWeight(99) = C. -/
theorem c9_sampling_amended :
    dbABC.hostTree.entryAtWeight 5 = some entryB ∧
      dbABC.hostTree.entryAtWeight 15 = some entryB ∧
      dbABC.hostTree.entryAtWeight 35 = some entryA ∧
      dbABC.hostTree.entryAtWeight 50 = some entryC ∧
      dbABC.hostTree.entryAtWeight 99 = some entryC := by
  decide

/-- C10: `RandomHost` never mutates the container — the state returned
to the receiver equals the input state in every case: the empty-index
failure, a successful lookup, and a failed lookup alike. -/
theorem c10_randomhost_no_mutation (hdb : HostDB) (w : Nat) :
    (hdb.RandomHost w).1 = hdb := by
  unfold HostDB.RandomHost
  split
  · rfl
  · split <;> rfl
